import Mathlib

/-!
Verification of the configuration-tree engine of hparams_config.py
(class Config: construction, attribute assignment, recursive update,
strict override, override-string parsing, and dict serialization),
shallowly embedded over association lists with value semantics.
-/

set_option autoImplicit false

namespace HparamsConfig

/-- Primitive Python scalar values appearing as configuration leaves. -/
inductive Prim where
| int : Int → Prim
| bool : Bool → Prim
| str : String → Prim
| pynone : Prim
deriving DecidableEq, Repr

/-- A Python value as handled by the config engine: a primitive, a list,
a plain dict (ordered association list, as Python dicts preserve insertion
order), or a Config object (whose member dict is again an association list). -/
inductive PyVal where
| prim : Prim → PyVal
| list : List PyVal → PyVal
| dict : List (String × PyVal) → PyVal
| config : List (String × PyVal) → PyVal
deriving Repr

/-- The member dictionary of a Config object, or a plain Python dict. -/
abbrev Entries := List (String × PyVal)

/-- Errors raised by the engine.  keyError models the KeyError raised by
Config._update for an unknown key under strict override (its payload is the
offending key name, exactly what the raised message interpolates);
unknownValueType models the ValueError raised by Config.override on a source
that is neither str nor dict; invalidString models the ValueError for a string
source that neither contains an equals sign nor ends in .yaml;
invalidConfigStr models the ValueError raised by Config.parse_from_str,
carrying the original input string. -/
inductive PyErr where
| keyError : String → PyErr
| unknownValueType : PyVal → PyErr
| invalidString : String → PyErr
| invalidConfigStr : String → PyErr
deriving Repr

/-- Python dict read: d[k] as an Option (first matching key). -/
def dictGet : Entries → String → Option PyVal
| [], _ => Option.none
| (k', v) :: rest, k => if k' = k then some v else dictGet rest k

/-- Python dict write d[k] = v: replace the value at an existing key in
place (Python dicts keep the key's position), else append the new key. -/
def dictSet : Entries → String → PyVal → Entries
| [], k, v => [(k, v)]
| (k', v') :: rest, k, v =>
  if k' = k then (k, v) :: rest else (k', v') :: dictSet rest k v

/-- The key list of a dict, in insertion order. -/
def keysOf (e : Entries) : List String := e.map Prod.fst

/-- Model of Config.as_dict restricted to the member entries: every direct
Config value becomes a plain dict recursively; other values are deep-copied,
which is the identity in value semantics. -/
def as_dict_entries : Entries → Entries
| [] => []
| (k, PyVal.config c) :: rest => (k, PyVal.dict (as_dict_entries c)) :: as_dict_entries rest
| (k, v) :: rest => (k, v) :: as_dict_entries rest

mutual
/-- Structural size of a value, used as a termination measure. -/
def vsize : PyVal → Nat
| PyVal.prim _ => 1
| PyVal.list xs => 1 + lsize xs
| PyVal.dict d => 1 + esize d
| PyVal.config c => 1 + esize c

/-- Structural size of a list of values. -/
def lsize : List PyVal → Nat
| [] => 0
| x :: xs => 1 + vsize x + lsize xs

/-- Structural size of a dict. -/
def esize : Entries → Nat
| [] => 0
| (_, v) :: rest => 1 + vsize v + esize rest
end

theorem esize_as_dict : ∀ c : Entries, esize (as_dict_entries c) = esize c
| [] => by simp [as_dict_entries, esize]
| (k, PyVal.prim p) :: rest => by
  simp [as_dict_entries, esize, esize_as_dict rest]
| (k, PyVal.list xs) :: rest => by
  simp [as_dict_entries, esize, esize_as_dict rest]
| (k, PyVal.dict d) :: rest => by
  simp [as_dict_entries, esize, esize_as_dict rest]
| (k, PyVal.config c) :: rest => by
  simp [as_dict_entries, esize, vsize, esize_as_dict c, esize_as_dict rest]

mutual
/-- Model of the value normalization performed by Config.__setattr__:
a plain dict becomes a fresh Config built from it; any other value is
deep-copied (the identity on values) and stored as a leaf. -/
def normV : PyVal → PyVal
| PyVal.dict d => PyVal.config (configOf d)
| v => v
termination_by v => 2 * vsize v
decreasing_by
  simp [esize, vsize]
  omega

/-- Model of Config.__init__ / Config(config_dict): start from an empty
member dict and update with config_dict, allowing new keys. -/
def configOf (d : Entries) : Entries :=
  (updE [] d true).1
termination_by 2 * esize d + 1
decreasing_by
  omega

/-- Model of Config._update(config_dict, allow_new_keys): iterate the source
pairs in order; an absent key is inserted via __setattr__ when allowed and
raises KeyError(k) otherwise; when the stored value is a Config and the
incoming value is a dict (or a Config, converted with as_dict) the update
recurses into the stored child in place; otherwise __setattr__ replaces the
value.  Returns the updated entries together with the raised error, if any;
on error the returned entries are the partially updated state at the point
the error was raised (Python mutates self in place). -/
def updE : Entries → Entries → Bool → Entries × Option PyErr
| target, [], _ => (target, Option.none)
| target, (k, v) :: rest, allowNew =>
  match dictGet target k with
  | Option.none =>
    if allowNew then updE (dictSet target k (normV v)) rest allowNew
    else (target, some (PyErr.keyError k))
  | some oldv =>
    match oldv, v with
    | PyVal.config c, PyVal.dict d =>
      let r := updE c d allowNew
      match r.2 with
      | some e => (dictSet target k (PyVal.config r.1), some e)
      | Option.none => updE (dictSet target k (PyVal.config r.1)) rest allowNew
    | PyVal.config c, PyVal.config c2 =>
      let r := updE c (as_dict_entries c2) allowNew
      match r.2 with
      | some e => (dictSet target k (PyVal.config r.1), some e)
      | Option.none => updE (dictSet target k (PyVal.config r.1)) rest allowNew
    | _, v2 => updE (dictSet target k (normV v2)) rest allowNew
termination_by _ src _ => 2 * esize src
decreasing_by
  all_goals simp [esize, vsize, esize_as_dict]
  all_goals omega
end

/-- Model of Config.__setattr__ as a whole: store the normalized value. -/
def setattr (e : Entries) (k : String) (v : PyVal) : Entries :=
  dictSet e k (normV v)

/-- Model of Config.update: merge while always allowing new keys.  It never
raises, so only the updated entries are returned. -/
def update (self : Entries) (d : Entries) : Entries :=
  (updE self d true).1

/-- Model of Python str.split(sep) for a one-character separator: the pieces
between occurrences of the separator, so the result always has one more
piece than there are separators, and an empty input yields one empty piece. -/
def splitOnChar (c : Char) : List Char → List (List Char)
| [] => [[]]
| x :: xs =>
  if x = c then [] :: splitOnChar c xs
  else
    match splitOnChar c xs with
    | [] => [[x]]
    | h :: t => (x :: h) :: t

/-- Model of Python str.strip: drop whitespace from both ends. -/
def trimChars (cs : List Char) : List Char :=
  ((cs.dropWhile Char.isWhitespace).reverse.dropWhile Char.isWhitespace).reverse

/-- Numeric value of a digit string, most significant digit first. -/
def digitsToNat (cs : List Char) : Nat :=
  cs.foldl (fun n c => 10 * n + (c.toNat - '0'.toNat)) 0

/-- A valid Python decimal integer literal body: nonempty, all digits, and
no leading zero except for the literal 0 itself. -/
def decIntLit? (cs : List Char) : Option Nat :=
  if cs ≠ [] ∧ cs.all Char.isDigit ∧ (cs.head? = some '0' → cs = ['0'])
  then some (digitsToNat cs) else Option.none

/-- Partial model of the standard-library collaborator ast.literal_eval as
used by eval_str_fn: exact on the named constants None, True and False and on
signed decimal integer literals; every other input is reported as a parse
failure (Option.none), which matches the library on all inputs exercised in
this development (for instance efficientnet-b1 is rejected there as a
non-literal binary operation). -/
def ast_literal_eval (cs : List Char) : Option PyVal :=
  if cs = "None".toList then some (PyVal.prim Prim.pynone)
  else if cs = "True".toList then some (PyVal.prim (Prim.bool true))
  else if cs = "False".toList then some (PyVal.prim (Prim.bool false))
  else if cs.head? = some '-' then
    (decIntLit? cs.tail).map (fun n => PyVal.prim (Prim.int (-(n : Int))))
  else (decIntLit? cs).map (fun n => PyVal.prim (Prim.int (n : Int)))

/-- Model of eval_str_fn: the exact strings true and false become booleans;
otherwise the value is parsed with ast.literal_eval, and on a parse failure
(ValueError or SyntaxError) the raw string is returned unchanged. -/
def eval_str_fn (cs : List Char) : PyVal :=
  if cs = "true".toList ∨ cs = "false".toList then
    PyVal.prim (Prim.bool (cs = "true".toList))
  else
    match ast_literal_eval cs with
    | some v => v
    | Option.none => PyVal.prim (Prim.str (String.mk cs))

/-- Split a character list at the first occurrence of c, if any. -/
def splitFirst (c : Char) : List Char → Option (List Char × List Char)
| [] => Option.none
| x :: xs =>
  if x = c then some ([], xs)
  else
    match splitFirst c xs with
    | Option.none => Option.none
    | some (pre, post) => some (x :: pre, post)

theorem splitFirst_post_length {c : Char} :
    ∀ {cs pre post : List Char}, splitFirst c cs = some (pre, post) →
      post.length < cs.length := by
  intro cs
  induction cs with
  | nil => intro pre post h; simp [splitFirst] at h
  | cons x xs ih =>
    intro pre post h
    by_cases hx : x = c
    · simp [splitFirst, hx] at h
      simp [← h.2]
    · simp [splitFirst, hx] at h
      cases hs : splitFirst c xs with
      | none => rw [hs] at h; simp at h
      | some pq =>
        rw [hs] at h
        simp at h
        have hfix : splitFirst c xs = some (pq.1, pq.2) := by rw [hs]
        have := ih hfix
        simp [← h.2]
        omega

/-- Model of add_kv_recursive inside Config.parse_from_str: a dotted key
x.y.z=v expands to nested singleton dicts split at the first dot at each
step; at the terminal key, a value containing the reserved character star is
split on it into a list with each piece evaluated independently, and any
other value is evaluated as a single scalar. -/
def add_kv_recursive (k v : List Char) : Entries :=
  match hs : splitFirst '.' k with
  | Option.none =>
    if v.contains '*' then
      [(String.mk k, PyVal.list ((splitOnChar '*' v).map eval_str_fn))]
    else
      [(String.mk k, eval_str_fn v)]
  | some (pre, post) => [(String.mk pre, PyVal.dict (add_kv_recursive post v))]
termination_by k.length
decreasing_by
  exact splitFirst_post_length hs

/-- Model of merge_dict_recursive inside Config.parse_from_str: merge the
source fragment into the accumulated dict, recursing when both sides hold a
dict at the same key and overwriting otherwise. -/
def merge_dict_recursive (target : Entries) : Entries → Entries
| [] => target
| (k, v) :: rest =>
  match dictGet target k, v with
  | some (PyVal.dict td), PyVal.dict sd =>
    merge_dict_recursive (dictSet target k (PyVal.dict (merge_dict_recursive td sd))) rest
  | _, v2 =>
    merge_dict_recursive (dictSet target k v2) rest
termination_by src => esize src
decreasing_by
  all_goals simp [esize, vsize]
  all_goals omega

/-- The per-pair loop of Config.parse_from_str over the comma-split pieces:
an empty piece is skipped; a piece must split on the equals sign into exactly
a key and a value (Python's two-element tuple unpacking of split, so any
other number of equals signs raises ValueError, converted into the error
carrying the original config_str); the key is stripped of surrounding
whitespace and the expanded fragment is merged into the accumulator. -/
def parsePairs (config_str : String) : List (List Char) → Entries → Except PyErr Entries
| [], acc => Except.ok acc
| pair :: rest, acc =>
  if pair = [] then parsePairs config_str rest acc
  else
    match splitOnChar '=' pair with
    | [key_str, value_str] =>
      parsePairs config_str rest
        (merge_dict_recursive acc (add_kv_recursive (trimChars key_str) value_str))
    | _ => Except.error (PyErr.invalidConfigStr config_str)

/-- Model of Config.parse_from_str: an empty string parses to the empty
dict; otherwise the string is split on commas and the pairs are folded into
a nested dict. -/
def parse_from_str (config_str : String) : Except PyErr Entries :=
  if config_str = "" then Except.ok []
  else parsePairs config_str (splitOnChar ',' config_str.toList) []

/-- Model of Config.override, parameterized by the external YAML-file
collaborator (the spec treats file reading as an external capability; the
collaborator returns the nested mapping parsed from the file).  A string
source: empty is a no-op, one containing an equals sign is parsed as an
override string, one ending in .yaml is loaded through the collaborator, any
other string raises ValueError; a dict source is merged directly; any other
value raises the unknown-value-type ValueError.  The merge itself is
Config._update with the given allow_new_keys flag. -/
def override (yamlLoad : String → Entries) (self : Entries) (src : PyVal)
    (allowNew : Bool) : Entries × Option PyErr :=
  match src with
  | PyVal.prim (Prim.str s) =>
    if s = "" then (self, Option.none)
    else if s.toList.contains '=' then
      match parse_from_str s with
      | Except.ok d => updE self d allowNew
      | Except.error e => (self, some e)
    else if ".yaml".toList.isSuffixOf s.toList then
      updE self (yamlLoad s) allowNew
    else (self, some (PyErr.invalidString s))
  | PyVal.dict d => updE self d allowNew
  | v => (self, some (PyErr.unknownValueType v))

mutual
/-- Well-formedness of a value as a model of a real Python value: every dict
or Config node has pairwise distinct keys (Python dicts cannot hold duplicate
keys).  List elements are never traversed by the engine's merge logic, so
they are unconstrained. -/
def wfV : PyVal → Bool
| PyVal.prim _ => true
| PyVal.list _ => true
| PyVal.dict d => wfEntries d
| PyVal.config c => wfEntries c
termination_by v => vsize v
decreasing_by
  all_goals simp [vsize]
  all_goals omega

/-- Well-formedness of a dict: pairwise distinct keys and well-formed
values. -/
def wfEntries : Entries → Bool
| [] => true
| (k, v) :: rest => !(keysOf rest).contains k && wfV v && wfEntries rest
termination_by e => esize e
decreasing_by
  all_goals simp [esize, vsize]
  all_goals omega
end

mutual
/-- keysPreserved before after states that after has exactly the same keys
as before, in the same order, and that this holds recursively at every
child Config node that is present in both (a child replaced by a leaf, or a
leaf replaced by a fresh child, is not a surviving node of before). -/
def keysPreserved (before after : Entries) : Bool :=
  decide (keysOf before = keysOf after) && kpEntries before after
termination_by 2 * esize before + 1
decreasing_by
  omega

/-- The recursive part of keysPreserved: every direct Config value of before
whose key still holds a Config in after is key-preserved recursively. -/
def kpEntries : Entries → Entries → Bool
| [], _ => true
| (k, PyVal.config c) :: rest, after =>
  (match dictGet after k with
   | some (PyVal.config c2) => keysPreserved c c2
   | _ => true) && kpEntries rest after
| _ :: rest, after => kpEntries rest after
termination_by before _ => 2 * esize before
decreasing_by
  all_goals simp [esize, vsize]
  all_goals omega
end

/-- A well-formed plain nested mapping: dict keys are pairwise distinct at
every level and leaves are primitives or lists of primitives; no Config
nodes occur (the round-trip property is about plain mappings). -/
def allPrim : List PyVal → Bool
| [] => true
| PyVal.prim _ :: rest => allPrim rest
| _ => false

mutual
/-- Valid nested-mapping values: primitives, sequences of primitives, or
nested valid mappings. -/
def validMapVal : PyVal → Bool
| PyVal.prim _ => true
| PyVal.list xs => allPrim xs
| PyVal.dict d => validMapEntries d
| PyVal.config _ => false
termination_by v => vsize v
decreasing_by
  all_goals simp [vsize]
  all_goals omega

/-- Valid nested mappings: pairwise distinct keys, valid values. -/
def validMapEntries : Entries → Bool
| [] => true
| (k, v) :: rest => !(keysOf rest).contains k && validMapVal v && validMapEntries rest
termination_by e => esize e
decreasing_by
  all_goals simp [esize, vsize]
  all_goals omega
end

/-! ### Basic association-list lemmas -/

theorem dictGet_dictSet_self (e : Entries) (k : String) (v : PyVal) :
    dictGet (dictSet e k v) k = some v := by
  induction e with
  | nil => simp [dictSet, dictGet]
  | cons p rest ih =>
    by_cases h : p.1 = k
    · simp [dictSet, dictGet, h]
    · simp [dictSet, dictGet, h, ih]

theorem dictGet_dictSet_ne (e : Entries) (k j : String) (v : PyVal) (h : j ≠ k) :
    dictGet (dictSet e k v) j = dictGet e j := by
  induction e with
  | nil => simp [dictSet, dictGet, Ne.symm h]
  | cons p rest ih =>
    cases p with
    | mk k' v' =>
      by_cases hk : k' = k
      · subst hk
        simp [dictSet, dictGet, Ne.symm h]
      · by_cases hj : k' = j
        · subst hj
          simp [dictSet, dictGet, h]
        · simp [dictSet, dictGet, hk, hj, ih]

theorem keysOf_dictSet_mem (e : Entries) (k : String) (v w : PyVal)
    (h : dictGet e k = some w) : keysOf (dictSet e k v) = keysOf e := by
  induction e with
  | nil => simp [dictGet] at h
  | cons p rest ih =>
    cases p with
    | mk k' v' =>
      by_cases hk : k' = k
      · subst hk
        simp [dictSet, keysOf]
      · simp [dictGet, hk] at h
        have hih := ih h
        simp [keysOf] at hih
        simp [dictSet, hk, keysOf, hih]

theorem dictSet_fresh (e : Entries) (k : String) (v : PyVal)
    (h : dictGet e k = Option.none) : dictSet e k v = e ++ [(k, v)] := by
  induction e with
  | nil => simp [dictSet]
  | cons p rest ih =>
    cases p with
    | mk k' v' =>
      by_cases hk : k' = k
      · simp [dictGet, hk] at h
      · simp [dictGet, hk] at h
        simp [dictSet, hk, ih h]

theorem keysOf_dictSet_fresh (e : Entries) (k : String) (v : PyVal)
    (h : dictGet e k = Option.none) :
    keysOf (dictSet e k v) = keysOf e ++ [k] := by
  rw [dictSet_fresh e k v h]
  simp [keysOf]

theorem dictGet_vsize (e : Entries) (k : String) (v : PyVal)
    (h : dictGet e k = some v) : vsize v ≤ esize e := by
  induction e with
  | nil => simp [dictGet] at h
  | cons p rest ih =>
    cases p with
    | mk k' v' =>
      by_cases hk : k' = k
      · simp [dictGet, hk] at h
        subst h
        simp [esize]
        omega
      · simp [dictGet, hk] at h
        have := ih h
        simp [esize]
        omega

theorem dictGet_none_not_mem (e : Entries) (k : String)
    (h : dictGet e k = Option.none) : k ∉ keysOf e := by
  induction e with
  | nil => simp [keysOf]
  | cons p rest ih =>
    cases p with
    | mk k' v' =>
      by_cases hk : k' = k
      · simp [dictGet, hk] at h
      · simp [dictGet, hk] at h
        simp [keysOf] at ih ⊢
        exact ⟨fun hh => hk hh.symm, ih h⟩

theorem dictGet_not_mem_none (e : Entries) (k : String)
    (h : k ∉ keysOf e) : dictGet e k = Option.none := by
  induction e with
  | nil => simp [dictGet]
  | cons p rest ih =>
    cases p with
    | mk k' v =>
      simp only [keysOf, List.map_cons, List.mem_cons] at h
      push_neg at h
      have h1 : ¬ k' = k := fun hh => h.1 hh.symm
      simp [dictGet, h1]
      exact ih h.2

/-! ### Structural lemmas about the merge -/

theorem updE_true_none : ∀ (src target : Entries), (updE target src true).2 = Option.none
| [], target => by simp [updE]
| (k, v) :: rest, target => by
  simp only [updE]
  cases hg : dictGet target k with
  | none =>
    simpa using updE_true_none rest (dictSet target k (normV v))
  | some oldv =>
    cases oldv with
    | config c =>
      cases v with
      | dict d =>
        have h1 := updE_true_none d c
        cases hr : (updE c d true).2 with
        | some e => rw [hr] at h1; cases h1
        | none => simp [hr, updE_true_none rest _]
      | config c2 =>
        have h1 := updE_true_none (as_dict_entries c2) c
        cases hr : (updE c (as_dict_entries c2) true).2 with
        | some e => rw [hr] at h1; cases h1
        | none => simp [hr, updE_true_none rest _]
      | prim p => simp [updE_true_none rest _]
      | list xs => simp [updE_true_none rest _]
    | prim p => simp [updE_true_none rest _]
    | list xs => simp [updE_true_none rest _]
    | dict d => simp [updE_true_none rest _]
termination_by src _ => esize src
decreasing_by
  all_goals simp [esize, vsize, esize_as_dict]
  all_goals omega

theorem updE_append : ∀ (pre post target : Entries) (aN : Bool),
    (updE target pre aN).2 = Option.none →
    updE target (pre ++ post) aN = updE (updE target pre aN).1 post aN
| [], post, target, aN => by
  intro h
  simp [updE]
| (k, v) :: rest, post, target, aN => by
  intro h
  simp only [updE, List.cons_append] at h ⊢
  cases hg : dictGet target k with
  | none =>
    cases haN : aN with
    | false => simp [hg, haN] at h
    | true =>
      simp only [hg, haN] at h ⊢
      simpa using updE_append rest post (dictSet target k (normV v)) true h
  | some oldv =>
    cases oldv with
    | config c =>
      cases v with
      | dict d =>
        cases hr : (updE c d aN).2 with
        | some e => simp [hg, hr] at h
        | none =>
          simp only [hg, hr] at h ⊢
          simpa [hr] using
            updE_append rest post (dictSet target k (PyVal.config (updE c d aN).1)) aN h
      | config c2 =>
        cases hr : (updE c (as_dict_entries c2) aN).2 with
        | some e => simp [hg, hr] at h
        | none =>
          simp only [hg, hr] at h ⊢
          simpa [hr] using
            updE_append rest post
              (dictSet target k (PyVal.config (updE c (as_dict_entries c2) aN).1)) aN h
      | prim p =>
        simp only [hg] at h ⊢
        simpa using updE_append rest post (dictSet target k (normV (PyVal.prim p))) aN h
      | list xs =>
        simp only [hg] at h ⊢
        simpa using updE_append rest post (dictSet target k (normV (PyVal.list xs))) aN h
    | prim p =>
      simp only [hg] at h ⊢
      simpa using updE_append rest post (dictSet target k (normV v)) aN h
    | list xs =>
      simp only [hg] at h ⊢
      simpa using updE_append rest post (dictSet target k (normV v)) aN h
    | dict d =>
      simp only [hg] at h ⊢
      simpa using updE_append rest post (dictSet target k (normV v)) aN h

theorem updE_keysOf : ∀ (src target : Entries),
    (updE target src false).2 = Option.none →
    keysOf (updE target src false).1 = keysOf target
| [], target => by
  intro h
  simp [updE]
| (k, v) :: rest, target => by
  intro h
  simp only [updE] at h ⊢
  cases hg : dictGet target k with
  | none => simp [hg] at h
  | some oldv =>
    have hkeep : ∀ w : PyVal, keysOf (dictSet target k w) = keysOf target :=
      fun w => keysOf_dictSet_mem target k w oldv hg
    cases oldv with
    | config c =>
      cases v with
      | dict d =>
        cases hr : (updE c d false).2 with
        | some e => simp [hg, hr] at h
        | none =>
          simp only [hg, hr] at h ⊢
          simp only [updE_keysOf rest _ (by simpa [hr] using h)]
          simp [hkeep, hr]
      | config c2 =>
        cases hr : (updE c (as_dict_entries c2) false).2 with
        | some e => simp [hg, hr] at h
        | none =>
          simp only [hg, hr] at h ⊢
          simp only [updE_keysOf rest _ (by simpa [hr] using h)]
          simp [hkeep, hr]
      | prim p =>
        simp only [hg] at h ⊢
        simp [updE_keysOf rest _ (by simpa using h), hkeep]
      | list xs =>
        simp only [hg] at h ⊢
        simp [updE_keysOf rest _ (by simpa using h), hkeep]
    | prim p =>
      simp only [hg] at h ⊢
      simp [updE_keysOf rest _ (by simpa using h), hkeep]
    | list xs =>
      simp only [hg] at h ⊢
      simp [updE_keysOf rest _ (by simpa using h), hkeep]
    | dict d =>
      simp only [hg] at h ⊢
      simp [updE_keysOf rest _ (by simpa using h), hkeep]

theorem updE_get_not_mem : ∀ (src target : Entries) (aN : Bool) (j : String),
    j ∉ keysOf src →
    dictGet (updE target src aN).1 j = dictGet target j
| [], target, aN, j => by
  intro hj
  simp [updE]
| (k, v) :: rest, target, aN, j => by
  intro hj
  have hjk : j ≠ k := by
    intro hh
    exact hj (by simp [keysOf, hh])
  have hjr : j ∉ keysOf rest := by
    intro hh
    exact hj (by simp [keysOf]; exact Or.inr (by simpa [keysOf] using hh))
  have hset : ∀ w : PyVal, dictGet (dictSet target k w) j = dictGet target j :=
    fun w => dictGet_dictSet_ne target k j w hjk
  simp only [updE]
  cases hg : dictGet target k with
  | none =>
    cases aN with
    | false => simp
    | true => simp [updE_get_not_mem rest _ true j hjr, hset]
  | some oldv =>
    cases oldv with
    | config c =>
      cases v with
      | dict d =>
        cases hr : (updE c d aN).2 with
        | some e => simp [hr, hset]
        | none => simp [hr, updE_get_not_mem rest _ aN j hjr, hset]
      | config c2 =>
        cases hr : (updE c (as_dict_entries c2) aN).2 with
        | some e => simp [hr, hset]
        | none => simp [hr, updE_get_not_mem rest _ aN j hjr, hset]
      | prim p => simp [updE_get_not_mem rest _ aN j hjr, hset]
      | list xs => simp [updE_get_not_mem rest _ aN j hjr, hset]
    | prim p => simp [updE_get_not_mem rest _ aN j hjr, hset]
    | list xs => simp [updE_get_not_mem rest _ aN j hjr, hset]
    | dict d => simp [updE_get_not_mem rest _ aN j hjr, hset]

/-! ### Well-formedness is preserved by the merge -/

theorem keysOf_nil : keysOf [] = [] := rfl

theorem keysOf_cons (k : String) (v : PyVal) (rest : Entries) :
    keysOf ((k, v) :: rest) = k :: keysOf rest := rfl

theorem not_mem_of_bnot_contains {l : List String} {k : String}
    (h : (!l.contains k) = true) : k ∉ l := by
  simp at h
  exact h

theorem bnot_contains_of_not_mem {l : List String} {k : String}
    (h : k ∉ l) : (!l.contains k) = true := by
  simp
  exact h

theorem dictGet_wf (e : Entries) (k : String) (v : PyVal)
    (he : wfEntries e = true) (h : dictGet e k = some v) : wfV v = true := by
  induction e with
  | nil => simp [dictGet] at h
  | cons p rest ih =>
    cases p with
    | mk k' v' =>
      simp only [wfEntries, Bool.and_eq_true] at he
      by_cases hk : k' = k
      · simp [dictGet, hk] at h
        subst h
        exact he.1.2
      · simp [dictGet, hk] at h
        exact ih he.2 h

theorem wf_dictSet (e : Entries) (k : String) (v : PyVal)
    (he : wfEntries e = true) (hv : wfV v = true) :
    wfEntries (dictSet e k v) = true := by
  induction e with
  | nil => simp [dictSet, wfEntries, keysOf, hv]
  | cons p rest ih =>
    cases p with
    | mk k' v' =>
      simp only [wfEntries, Bool.and_eq_true] at he
      obtain ⟨⟨hk', hv'⟩, hrest⟩ := he
      by_cases hk : k' = k
      · subst hk
        have hset : dictSet ((k', v') :: rest) k' v = (k', v) :: rest := by
          simp [dictSet]
        rw [hset]
        simp only [wfEntries, Bool.and_eq_true]
        exact ⟨⟨hk', hv⟩, hrest⟩
      · have hnotmem : k' ∉ keysOf (dictSet rest k v) := by
          have hmem0 : k' ∉ keysOf rest := not_mem_of_bnot_contains hk'
          cases hget : dictGet rest k with
          | none =>
            rw [keysOf_dictSet_fresh rest k v hget]
            simp only [List.mem_append, List.mem_singleton]
            push_neg
            exact ⟨hmem0, hk⟩
          | some w =>
            rw [keysOf_dictSet_mem rest k v w hget]
            exact hmem0
        simp only [dictSet, hk, if_false, wfEntries, Bool.and_eq_true]
        exact ⟨⟨bnot_contains_of_not_mem hnotmem, hv'⟩, ih hrest⟩

theorem keysOf_as_dict : ∀ c : Entries, keysOf (as_dict_entries c) = keysOf c
| [] => by simp [as_dict_entries]
| (k, PyVal.prim p) :: rest => by
  simp only [as_dict_entries, keysOf_cons, keysOf_as_dict rest]
| (k, PyVal.list xs) :: rest => by
  simp only [as_dict_entries, keysOf_cons, keysOf_as_dict rest]
| (k, PyVal.dict d) :: rest => by
  simp only [as_dict_entries, keysOf_cons, keysOf_as_dict rest]
| (k, PyVal.config c) :: rest => by
  simp only [as_dict_entries, keysOf_cons, keysOf_as_dict rest]

theorem wf_as_dict : ∀ c : Entries, wfEntries c = true → wfEntries (as_dict_entries c) = true
| [], _ => by simp [as_dict_entries, wfEntries]
| (k, PyVal.prim p) :: rest, h => by
  simp only [wfEntries, Bool.and_eq_true] at h
  simp only [as_dict_entries, wfEntries, Bool.and_eq_true, keysOf_as_dict]
  exact ⟨⟨h.1.1, h.1.2⟩, wf_as_dict rest h.2⟩
| (k, PyVal.list xs) :: rest, h => by
  simp only [wfEntries, Bool.and_eq_true] at h
  simp only [as_dict_entries, wfEntries, Bool.and_eq_true, keysOf_as_dict]
  exact ⟨⟨h.1.1, h.1.2⟩, wf_as_dict rest h.2⟩
| (k, PyVal.dict d) :: rest, h => by
  simp only [wfEntries, Bool.and_eq_true] at h
  simp only [as_dict_entries, wfEntries, Bool.and_eq_true, keysOf_as_dict]
  exact ⟨⟨h.1.1, h.1.2⟩, wf_as_dict rest h.2⟩
| (k, PyVal.config c) :: rest, h => by
  simp only [wfEntries, Bool.and_eq_true] at h
  have hc : wfEntries c = true := by simpa [wfV] using h.1.2
  simp only [as_dict_entries, wfEntries, Bool.and_eq_true, keysOf_as_dict]
  refine ⟨⟨h.1.1, ?_⟩, wf_as_dict rest h.2⟩
  simpa [wfV] using wf_as_dict c hc

theorem updE_wf : ∀ (src target : Entries) (aN : Bool),
    wfEntries target = true → wfEntries src = true →
    wfEntries (updE target src aN).1 = true
| [], target, aN => by
  intro ht _
  simpa [updE] using ht
| (k, v) :: rest, target, aN => by
  intro ht hs
  simp only [wfEntries, Bool.and_eq_true] at hs
  obtain ⟨⟨hk, hv⟩, hrest⟩ := hs
  have hnorm : wfV (normV v) = true := by
    cases v with
    | dict d =>
      simp only [normV, wfV, configOf]
      exact updE_wf d [] true (by simp [wfEntries]) (by simpa [wfV] using hv)
    | prim p => simpa [normV] using hv
    | list xs => simpa [normV] using hv
    | config c => simpa [normV] using hv
  simp only [updE]
  cases hg : dictGet target k with
  | none =>
    cases aN with
    | false => simpa using ht
    | true =>
      simpa using updE_wf rest _ true (wf_dictSet _ _ _ ht hnorm) hrest
  | some oldv =>
    cases oldv with
    | config c =>
      have hcwf : wfEntries c = true := by
        simpa [wfV] using dictGet_wf target k _ ht hg
      cases v with
      | dict d =>
        have hdwf : wfEntries d = true := by simpa [wfV] using hv
        have hr1 : wfEntries (updE c d aN).1 = true := updE_wf d c aN hcwf hdwf
        have ht1 : wfEntries (dictSet target k (PyVal.config (updE c d aN).1)) = true :=
          wf_dictSet _ _ _ ht (by simpa [wfV] using hr1)
        cases hr : (updE c d aN).2 with
        | some e => simpa [hr] using ht1
        | none => simpa [hr] using updE_wf rest _ aN ht1 hrest
      | config c2 =>
        have hc2wf : wfEntries c2 = true := by simpa [wfV] using hv
        have hr1 : wfEntries (updE c (as_dict_entries c2) aN).1 = true :=
          updE_wf (as_dict_entries c2) c aN hcwf (wf_as_dict c2 hc2wf)
        have ht1 : wfEntries
            (dictSet target k (PyVal.config (updE c (as_dict_entries c2) aN).1)) = true :=
          wf_dictSet _ _ _ ht (by simpa [wfV] using hr1)
        cases hr : (updE c (as_dict_entries c2) aN).2 with
        | some e => simpa [hr] using ht1
        | none => simpa [hr] using updE_wf rest _ aN ht1 hrest
      | prim p =>
        simpa using updE_wf rest _ aN (wf_dictSet _ _ _ ht hnorm) hrest
      | list xs =>
        simpa using updE_wf rest _ aN (wf_dictSet _ _ _ ht hnorm) hrest
    | prim p =>
      simpa using updE_wf rest _ aN (wf_dictSet _ _ _ ht hnorm) hrest
    | list xs =>
      simpa using updE_wf rest _ aN (wf_dictSet _ _ _ ht hnorm) hrest
    | dict d =>
      simpa using updE_wf rest _ aN (wf_dictSet _ _ _ ht hnorm) hrest
termination_by src _ _ => esize src
decreasing_by
  all_goals simp [esize, vsize, esize_as_dict]
  all_goals omega

/-! ### Key-set preservation under strict override -/

theorem kpEntries_intro : ∀ (before after : Entries),
    wfEntries before = true →
    (∀ (j : String) (c c2 : Entries), dictGet before j = some (PyVal.config c) →
      dictGet after j = some (PyVal.config c2) → keysPreserved c c2 = true) →
    kpEntries before after = true
| [], after => by
  intro _ _
  simp [kpEntries]
| (k, v) :: rest, after => by
  intro hwf hpt
  simp only [wfEntries, Bool.and_eq_true] at hwf
  obtain ⟨⟨hk, hv⟩, hrest⟩ := hwf
  have hknot : k ∉ keysOf rest := not_mem_of_bnot_contains hk
  have hrestget : dictGet rest k = Option.none := dictGet_not_mem_none rest k hknot
  have hpt2 : ∀ (j : String) (c c2 : Entries), dictGet rest j = some (PyVal.config c) →
      dictGet after j = some (PyVal.config c2) → keysPreserved c c2 = true := by
    intro j c c2 hbj haj
    by_cases hjk : j = k
    · rw [hjk, hrestget] at hbj
      cases hbj
    · refine hpt j c c2 ?_ haj
      have hkj : ¬ k = j := fun hh => hjk hh.symm
      simp [dictGet, hkj, hbj]
  cases v with
  | config c =>
    simp only [kpEntries, Bool.and_eq_true]
    refine ⟨?_, kpEntries_intro rest after hrest hpt2⟩
    cases haft : dictGet after k with
    | none => simp
    | some w =>
      cases w with
      | config c2 => simpa using hpt k c c2 (by simp [dictGet]) haft
      | prim p => simp
      | list xs => simp
      | dict d => simp
  | prim p => simpa [kpEntries] using kpEntries_intro rest after hrest hpt2
  | list xs => simpa [kpEntries] using kpEntries_intro rest after hrest hpt2
  | dict d => simpa [kpEntries] using kpEntries_intro rest after hrest hpt2

theorem keysPreserved_refl_aux :
    ∀ (n : Nat) (t : Entries), esize t ≤ n → wfEntries t = true →
      keysPreserved t t = true := by
  intro n
  induction n with
  | zero =>
    intro t ht hw
    cases t with
    | nil => simp [keysPreserved, kpEntries]
    | cons p rest =>
      cases p
      simp [esize] at ht
  | succ n ih =>
    intro t ht hw
    simp only [keysPreserved, Bool.and_eq_true]
    refine ⟨by simp, ?_⟩
    apply kpEntries_intro t t hw
    intro j c c2 hgj hgj2
    rw [hgj] at hgj2
    obtain rfl : c = c2 := by simpa using hgj2
    have hle := dictGet_vsize t j (PyVal.config c) hgj
    simp [vsize] at hle
    exact ih c (by omega) (by simpa [wfV] using dictGet_wf t j _ hw hgj)

theorem keysPreserved_refl (t : Entries) (h : wfEntries t = true) :
    keysPreserved t t = true :=
  keysPreserved_refl_aux (esize t) t (le_refl _) h

theorem updE_kp_at : ∀ (src target : Entries) (j : String) (c c2 : Entries),
    wfEntries target = true → wfEntries src = true →
    (updE target src false).2 = Option.none →
    dictGet target j = some (PyVal.config c) →
    dictGet (updE target src false).1 j = some (PyVal.config c2) →
    keysPreserved c c2 = true
| [], target, j, c, c2 => by
  intro hwt _ _ hb ha
  simp only [updE] at ha
  rw [hb] at ha
  obtain rfl : c = c2 := by simpa using ha
  exact keysPreserved_refl c (by simpa [wfV] using dictGet_wf target j _ hwt hb)
| (k, v) :: rest, target, j, c, c2 => by
  intro hwt hws h hb ha
  simp only [wfEntries, Bool.and_eq_true] at hws
  obtain ⟨⟨hk, hv⟩, hrest⟩ := hws
  have hknot : k ∉ keysOf rest := not_mem_of_bnot_contains hk
  have hnorm : wfV (normV v) = true := by
    cases v with
    | dict d =>
      simp only [normV, wfV, configOf]
      exact updE_wf d [] true (by simp [wfEntries]) (by simpa [wfV] using hv)
    | prim p => simpa [normV] using hv
    | list xs => simpa [normV] using hv
    | config c0 => simpa [normV] using hv
  simp only [updE] at h ha
  cases hg : dictGet target k with
  | none => simp [hg] at h
  | some oldv =>
    cases oldv with
    | config c0 =>
      have hc0wf : wfEntries c0 = true := by
        simpa [wfV] using dictGet_wf target k _ hwt hg
      cases v with
      | dict d =>
        have hdwf : wfEntries d = true := by simpa [wfV] using hv
        cases hr : (updE c0 d false).2 with
        | some e => simp [hg, hr] at h
        | none =>
          simp only [hg, hr] at h ha
          have ht1 : wfEntries
              (dictSet target k (PyVal.config (updE c0 d false).1)) = true :=
            wf_dictSet _ _ _ hwt
              (by simpa [wfV] using updE_wf d c0 false hc0wf hdwf)
          by_cases hjk : j = k
          · have hb2 : dictGet target k = some (PyVal.config c) := by
              rw [← hjk]
              exact hb
            have hcc : c0 = c := by
              rw [hg] at hb2
              simpa using hb2
            have hres : dictGet (updE
                (dictSet target k (PyVal.config (updE c0 d false).1)) rest false).1 k
                = some (PyVal.config (updE c0 d false).1) := by
              rw [updE_get_not_mem rest _ false k hknot]
              exact dictGet_dictSet_self target k _
            rw [hjk] at ha
            rw [hres] at ha
            have hc2 : (updE c0 d false).1 = c2 := by simpa using ha
            rw [← hcc, ← hc2]
            simp only [keysPreserved, Bool.and_eq_true]
            refine ⟨by simp [updE_keysOf d c0 (by simpa using hr)], ?_⟩
            apply kpEntries_intro c0 _ hc0wf
            intro j2 cc cc2 hbb haa
            exact updE_kp_at d c0 j2 cc cc2 hc0wf hdwf (by simpa using hr) hbb haa
          · have hb1 : dictGet
                (dictSet target k (PyVal.config (updE c0 d false).1)) j
                = some (PyVal.config c) := by
              rw [dictGet_dictSet_ne target k j _ hjk]
              exact hb
            exact updE_kp_at rest _ j c c2 ht1 hrest (by simpa using h) hb1
              (by simpa using ha)
      | config csrc =>
        have hcswf : wfEntries (as_dict_entries csrc) = true :=
          wf_as_dict csrc (by simpa [wfV] using hv)
        cases hr : (updE c0 (as_dict_entries csrc) false).2 with
        | some e => simp [hg, hr] at h
        | none =>
          simp only [hg, hr] at h ha
          have ht1 : wfEntries
              (dictSet target k
                (PyVal.config (updE c0 (as_dict_entries csrc) false).1)) = true :=
            wf_dictSet _ _ _ hwt
              (by simpa [wfV] using
                updE_wf (as_dict_entries csrc) c0 false hc0wf hcswf)
          by_cases hjk : j = k
          · have hb2 : dictGet target k = some (PyVal.config c) := by
              rw [← hjk]
              exact hb
            have hcc : c0 = c := by
              rw [hg] at hb2
              simpa using hb2
            have hres : dictGet (updE
                (dictSet target k
                  (PyVal.config (updE c0 (as_dict_entries csrc) false).1)) rest false).1 k
                = some (PyVal.config (updE c0 (as_dict_entries csrc) false).1) := by
              rw [updE_get_not_mem rest _ false k hknot]
              exact dictGet_dictSet_self target k _
            rw [hjk] at ha
            rw [hres] at ha
            have hc2 : (updE c0 (as_dict_entries csrc) false).1 = c2 := by simpa using ha
            rw [← hcc, ← hc2]
            simp only [keysPreserved, Bool.and_eq_true]
            refine ⟨by simp [updE_keysOf (as_dict_entries csrc) c0 (by simpa using hr)], ?_⟩
            apply kpEntries_intro c0 _ hc0wf
            intro j2 cc cc2 hbb haa
            exact updE_kp_at (as_dict_entries csrc) c0 j2 cc cc2 hc0wf hcswf
              (by simpa using hr) hbb haa
          · have hb1 : dictGet
                (dictSet target k
                  (PyVal.config (updE c0 (as_dict_entries csrc) false).1)) j
                = some (PyVal.config c) := by
              rw [dictGet_dictSet_ne target k j _ hjk]
              exact hb
            exact updE_kp_at rest _ j c c2 ht1 hrest (by simpa using h) hb1
              (by simpa using ha)
      | prim p =>
        by_cases hjk : j = k
        · have hres : dictGet (updE
              (dictSet target k (normV (PyVal.prim p))) rest false).1 k
              = some (normV (PyVal.prim p)) := by
            rw [updE_get_not_mem rest _ false k hknot]
            exact dictGet_dictSet_self target k _
          simp only [hg] at ha
          rw [hjk] at ha
          rw [hres] at ha
          simp [normV] at ha
        · have hb1 : dictGet (dictSet target k (normV (PyVal.prim p))) j
              = some (PyVal.config c) := by
            rw [dictGet_dictSet_ne target k j _ hjk]
            exact hb
          simp only [hg] at h ha
          exact updE_kp_at rest _ j c c2 (wf_dictSet _ _ _ hwt hnorm) hrest
            (by simpa using h) hb1 (by simpa using ha)
      | list xs =>
        by_cases hjk : j = k
        · have hres : dictGet (updE
              (dictSet target k (normV (PyVal.list xs))) rest false).1 k
              = some (normV (PyVal.list xs)) := by
            rw [updE_get_not_mem rest _ false k hknot]
            exact dictGet_dictSet_self target k _
          simp only [hg] at ha
          rw [hjk] at ha
          rw [hres] at ha
          simp [normV] at ha
        · have hb1 : dictGet (dictSet target k (normV (PyVal.list xs))) j
              = some (PyVal.config c) := by
            rw [dictGet_dictSet_ne target k j _ hjk]
            exact hb
          simp only [hg] at h ha
          exact updE_kp_at rest _ j c c2 (wf_dictSet _ _ _ hwt hnorm) hrest
            (by simpa using h) hb1 (by simpa using ha)
    | prim p0 =>
      have hjk : j ≠ k := by
        intro hh
        rw [hh, hg] at hb
        cases hb
      have hb1 : dictGet (dictSet target k (normV v)) j
          = some (PyVal.config c) := by
        rw [dictGet_dictSet_ne target k j _ hjk]
        exact hb
      simp only [hg] at h ha
      exact updE_kp_at rest _ j c c2 (wf_dictSet _ _ _ hwt hnorm) hrest
        (by simpa using h) hb1 (by simpa using ha)
    | list xs0 =>
      have hjk : j ≠ k := by
        intro hh
        rw [hh, hg] at hb
        cases hb
      have hb1 : dictGet (dictSet target k (normV v)) j
          = some (PyVal.config c) := by
        rw [dictGet_dictSet_ne target k j _ hjk]
        exact hb
      simp only [hg] at h ha
      exact updE_kp_at rest _ j c c2 (wf_dictSet _ _ _ hwt hnorm) hrest
        (by simpa using h) hb1 (by simpa using ha)
    | dict d0 =>
      have hjk : j ≠ k := by
        intro hh
        rw [hh, hg] at hb
        cases hb
      have hb1 : dictGet (dictSet target k (normV v)) j
          = some (PyVal.config c) := by
        rw [dictGet_dictSet_ne target k j _ hjk]
        exact hb
      simp only [hg] at h ha
      exact updE_kp_at rest _ j c c2 (wf_dictSet _ _ _ hwt hnorm) hrest
        (by simpa using h) hb1 (by simpa using ha)
termination_by src _ _ _ _ => esize src
decreasing_by
  all_goals simp [esize, vsize, esize_as_dict]
  all_goals omega

theorem updE_keysPreserved (src target : Entries)
    (hwt : wfEntries target = true) (hws : wfEntries src = true)
    (h : (updE target src false).2 = Option.none) :
    keysPreserved target (updE target src false).1 = true := by
  simp only [keysPreserved, Bool.and_eq_true]
  refine ⟨by simp [updE_keysOf src target h], ?_⟩
  exact kpEntries_intro target _ hwt
    (fun j c c2 hbj haj => updE_kp_at src target j c c2 hwt hws h hbj haj)

/-! ### Round trip between construction and as_dict -/

theorem dictGet_append_none (acc : Entries) (j k : String) (w : PyVal)
    (h : dictGet acc j = Option.none) (hjk : j ≠ k) :
    dictGet (acc ++ [(k, w)]) j = Option.none := by
  induction acc with
  | nil => simp [dictGet, Ne.symm hjk]
  | cons p rest ih =>
    cases p with
    | mk k' v' =>
      by_cases hk : k' = j
      · simp [dictGet, hk] at h
      · simp [dictGet, hk] at h ⊢
        exact ih h

theorem updE_fresh : ∀ (src acc : Entries),
    validMapEntries src = true →
    (∀ j, j ∈ keysOf src → dictGet acc j = Option.none) →
    updE acc src true = (acc ++ src.map (fun p => (p.1, normV p.2)), Option.none)
| [], acc => by
  intro _ _
  simp [updE]
| (k, v) :: rest, acc => by
  intro hval hfresh
  simp only [validMapEntries, Bool.and_eq_true] at hval
  obtain ⟨⟨hk, hv⟩, hrest⟩ := hval
  have hknot : k ∉ keysOf rest := not_mem_of_bnot_contains hk
  have hgk : dictGet acc k = Option.none := hfresh k (by simp [keysOf_cons])
  have hset : dictSet acc k (normV v) = acc ++ [(k, normV v)] :=
    dictSet_fresh acc k (normV v) hgk
  have hfresh2 : ∀ j, j ∈ keysOf rest → dictGet (acc ++ [(k, normV v)]) j = Option.none := by
    intro j hj
    have hjk : j ≠ k := fun hh => hknot (hh ▸ hj)
    exact dictGet_append_none acc j k (normV v) (hfresh j (by simp [keysOf_cons, hj])) hjk
  have hstep : updE acc ((k, v) :: rest) true = updE (dictSet acc k (normV v)) rest true := by
    simp [updE, hgk]
  rw [hstep, hset, updE_fresh rest (acc ++ [(k, normV v)]) hrest hfresh2]
  simp

theorem configOf_eq_map (M : Entries) (h : validMapEntries M = true) :
    configOf M = M.map (fun p => (p.1, normV p.2)) := by
  have := updE_fresh M [] h (by intro j _; simp [dictGet])
  simp only [configOf, this]
  simp

theorem as_dict_configOf : ∀ M : Entries, validMapEntries M = true →
    as_dict_entries (configOf M) = M
| [], _ => by
  simp [configOf, updE, as_dict_entries]
| (k, PyVal.prim p) :: rest, h => by
  have hval := h
  simp only [validMapEntries, Bool.and_eq_true] at hval
  obtain ⟨⟨hk, hv⟩, hrest⟩ := hval
  rw [configOf_eq_map _ h]
  have htail : as_dict_entries (rest.map (fun q => (q.1, normV q.2))) = rest := by
    have h2 := as_dict_configOf rest hrest
    rw [configOf_eq_map rest hrest] at h2
    exact h2
  simp only [List.map_cons, normV, as_dict_entries, htail]
| (k, PyVal.list xs) :: rest, h => by
  have hval := h
  simp only [validMapEntries, Bool.and_eq_true] at hval
  obtain ⟨⟨hk, hv⟩, hrest⟩ := hval
  rw [configOf_eq_map _ h]
  have htail : as_dict_entries (rest.map (fun q => (q.1, normV q.2))) = rest := by
    have h2 := as_dict_configOf rest hrest
    rw [configOf_eq_map rest hrest] at h2
    exact h2
  simp only [List.map_cons, normV, as_dict_entries, htail]
| (k, PyVal.dict d) :: rest, h => by
  have hval := h
  simp only [validMapEntries, Bool.and_eq_true] at hval
  obtain ⟨⟨hk, hv⟩, hrest⟩ := hval
  rw [configOf_eq_map _ h]
  have htail : as_dict_entries (rest.map (fun q => (q.1, normV q.2))) = rest := by
    have h2 := as_dict_configOf rest hrest
    rw [configOf_eq_map rest hrest] at h2
    exact h2
  have hd : validMapEntries d = true := by simpa [validMapVal] using hv
  have hdd := as_dict_configOf d hd
  simp only [List.map_cons, normV, as_dict_entries, htail, hdd]
| (k, PyVal.config c) :: rest, h => by
  have hval := h
  simp only [validMapEntries, Bool.and_eq_true] at hval
  obtain ⟨⟨hk, hv⟩, hrest⟩ := hval
  simp [validMapVal] at hv
termination_by M => esize M
decreasing_by
  all_goals simp [esize, vsize]
  all_goals omega

/-! ### Lemmas about override-string parsing -/

theorem splitOnChar_ne_nil (c : Char) : ∀ cs : List Char, splitOnChar c cs ≠ []
| [] => by simp [splitOnChar]
| x :: xs => by
  by_cases hx : x = c
  · simp [splitOnChar, hx]
  · simp only [splitOnChar, hx, if_false]
    cases hs : splitOnChar c xs with
    | nil => simp
    | cons h t => simp

theorem length_splitOnChar (c : Char) :
    ∀ cs : List Char, (splitOnChar c cs).length = cs.count c + 1
| [] => by simp [splitOnChar]
| x :: xs => by
  by_cases hx : x = c
  · simp [splitOnChar, hx, List.count_cons, length_splitOnChar c xs]
  · simp only [splitOnChar, hx, if_false]
    cases hs : splitOnChar c xs with
    | nil => exact absurd hs (splitOnChar_ne_nil c xs)
    | cons h t =>
      have := length_splitOnChar c xs
      rw [hs] at this
      simp only [List.length_cons] at this ⊢
      have hcount : (x :: xs).count c = xs.count c := by
        simp [List.count_cons, hx]
      rw [hcount]
      omega

theorem mem_splitOnChar_sublist (c : Char) :
    ∀ (cs : List Char) (p : List Char), p ∈ splitOnChar c cs → p.Sublist cs
| [], p => by
  intro h
  simp [splitOnChar] at h
  simp [h]
| x :: xs, p => by
  intro h
  by_cases hx : x = c
  · simp only [splitOnChar, hx, if_true, List.mem_cons] at h
    rcases h with h | h
    · simp [h]
    · exact (mem_splitOnChar_sublist c xs p h).cons x
  · simp only [splitOnChar, hx, if_false] at h
    cases hs : splitOnChar c xs with
    | nil => exact absurd hs (splitOnChar_ne_nil c xs)
    | cons hd t =>
      rw [hs] at h
      simp only [List.mem_cons] at h
      rcases h with h | h
      · have hhd : hd.Sublist xs :=
          mem_splitOnChar_sublist c xs hd (by rw [hs]; simp)
        rw [h]
        exact hhd.cons₂ x
      · have hp : p ∈ splitOnChar c xs := by rw [hs]; simp [h]
        exact (mem_splitOnChar_sublist c xs p hp).cons x

theorem parsePairs_cons_err (s : String) (pair : List Char)
    (rest : List (List Char)) (acc : Entries)
    (hne : pair ≠ []) (hlen : (splitOnChar '=' pair).length ≠ 2) :
    parsePairs s (pair :: rest) acc = Except.error (PyErr.invalidConfigStr s) := by
  simp only [parsePairs, hne, if_false]
  rcases hsp : splitOnChar '=' pair with _ | ⟨a, _ | ⟨b, _ | ⟨d, t⟩⟩⟩
  · simp
  · simp
  · rw [hsp] at hlen
    simp at hlen
  · simp

theorem parsePairs_error (s : String) :
    ∀ (pairs : List (List Char)) (acc : Entries),
    (∃ p, p ∈ pairs ∧ p ≠ [] ∧ (splitOnChar '=' p).length ≠ 2) →
    parsePairs s pairs acc = Except.error (PyErr.invalidConfigStr s)
| [], acc => by
  intro h
  obtain ⟨p, hp, _, _⟩ := h
  simp at hp
| q :: rest, acc => by
  intro h
  obtain ⟨p, hp, hpne, hplen⟩ := h
  by_cases hq : q = []
  · subst hq
    simp only [parsePairs, if_pos rfl]
    apply parsePairs_error s rest acc
    refine ⟨p, ?_, hpne, hplen⟩
    simp only [List.mem_cons] at hp
    rcases hp with hp | hp
    · exact absurd hp hpne
    · exact hp
  · rcases hsp : splitOnChar '=' q with _ | ⟨a, _ | ⟨b, _ | ⟨d, t⟩⟩⟩
    · exact parsePairs_cons_err s q rest acc hq (by rw [hsp]; simp)
    · exact parsePairs_cons_err s q rest acc hq (by rw [hsp]; simp)
    · simp only [parsePairs, hq, if_false, hsp]
      apply parsePairs_error s rest _
      refine ⟨p, ?_, hpne, hplen⟩
      simp only [List.mem_cons] at hp
      rcases hp with hp | hp
      · rw [hp, hsp] at hplen
        simp at hplen
      · exact hp
    · exact parsePairs_cons_err s q rest acc hq (by rw [hsp]; simp)

theorem parsePairs_skip_empty (s : String) :
    ∀ (l1 l2 : List (List Char)) (acc : Entries),
    parsePairs s (l1 ++ [] :: l2) acc = parsePairs s (l1 ++ l2) acc
| [], l2, acc => by
  simp [parsePairs]
| q :: l1, l2, acc => by
  by_cases hq : q = []
  · subst hq
    simp only [List.cons_append, parsePairs, if_pos rfl]
    exact parsePairs_skip_empty s l1 l2 acc
  · rcases hsp : splitOnChar '=' q with _ | ⟨a, _ | ⟨b, _ | ⟨d, t⟩⟩⟩
    · rw [List.cons_append, List.cons_append,
        parsePairs_cons_err s q _ acc hq (by rw [hsp]; simp),
        parsePairs_cons_err s q _ acc hq (by rw [hsp]; simp)]
    · rw [List.cons_append, List.cons_append,
        parsePairs_cons_err s q _ acc hq (by rw [hsp]; simp),
        parsePairs_cons_err s q _ acc hq (by rw [hsp]; simp)]
    · simp only [List.cons_append, parsePairs, hq, if_false, hsp]
      exact parsePairs_skip_empty s l1 l2 _
    · rw [List.cons_append, List.cons_append,
        parsePairs_cons_err s q _ acc hq (by rw [hsp]; simp),
        parsePairs_cons_err s q _ acc hq (by rw [hsp]; simp)]

theorem splitFirst_none (c : Char) :
    ∀ cs : List Char, cs.contains c = false → splitFirst c cs = Option.none
| [], _ => by simp [splitFirst]
| x :: xs, h => by
  simp only [List.contains_cons, Bool.or_eq_false_iff] at h
  have hx : ¬ x = c := by
    intro hh
    rw [hh] at h
    simp at h
  simp only [splitFirst, hx, if_false]
  rw [splitFirst_none c xs h.2]

theorem splitFirst_append (c : Char) :
    ∀ (pre post : List Char), pre.contains c = false →
    splitFirst c (pre ++ c :: post) = some (pre, post)
| [], post, _ => by simp [splitFirst]
| x :: pre, post, h => by
  simp only [List.contains_cons, Bool.or_eq_false_iff] at h
  have hx : ¬ x = c := by
    intro hh
    rw [hh] at h
    simp at h
  simp only [List.cons_append, splitFirst, hx, if_false]
  simp only [List.append_eq]
  rw [splitFirst_append c pre post h.2]

theorem add_kv_dotted (pre post v : List Char) (h : pre.contains '.' = false) :
    add_kv_recursive (pre ++ '.' :: post) v
      = [(String.mk pre, PyVal.dict (add_kv_recursive post v))] := by
  rw [add_kv_recursive]
  rw [splitFirst_append '.' pre post h]

theorem add_kv_star (k v : List Char) (hk : k.contains '.' = false)
    (hv : v.contains '*' = true) :
    add_kv_recursive k v
      = [(String.mk k, PyVal.list ((splitOnChar '*' v).map eval_str_fn))] := by
  rw [add_kv_recursive]
  rw [splitFirst_none '.' k hk]
  rw [if_pos hv]

theorem add_kv_scalar (k v : List Char) (hk : k.contains '.' = false)
    (hv : v.contains '*' = false) :
    add_kv_recursive k v = [(String.mk k, eval_str_fn v)] := by
  rw [add_kv_recursive]
  rw [splitFirst_none '.' k hk]
  have hcond : ¬ (v.contains '*' = true) := by
    rw [hv]
    simp
  rw [if_neg hcond]

/-! ### Parsed override strings are well-formed mappings -/

theorem ast_literal_prim (cs : List Char) (v : PyVal)
    (h : ast_literal_eval cs = some v) : ∃ p : Prim, v = PyVal.prim p := by
  simp only [ast_literal_eval] at h
  split_ifs at h with h1 h2 h3 h4
  · exact ⟨_, (Option.some.inj h).symm⟩
  · exact ⟨_, (Option.some.inj h).symm⟩
  · exact ⟨_, (Option.some.inj h).symm⟩
  · cases hd : decIntLit? cs.tail with
    | none =>
      rw [hd] at h
      cases h
    | some n =>
      rw [hd] at h
      exact ⟨_, (Option.some.inj h).symm⟩
  · cases hd : decIntLit? cs with
    | none =>
      rw [hd] at h
      cases h
    | some n =>
      rw [hd] at h
      exact ⟨_, (Option.some.inj h).symm⟩

theorem wfV_eval_str_fn (cs : List Char) : wfV (eval_str_fn cs) = true := by
  by_cases hb : cs = "true".toList ∨ cs = "false".toList
  · simp only [eval_str_fn, if_pos hb, wfV]
  · simp only [eval_str_fn, if_neg hb]
    cases ha : ast_literal_eval cs with
    | none => simp [wfV]
    | some v =>
      obtain ⟨p, hp⟩ := ast_literal_prim cs v ha
      simp [hp, wfV]

theorem wf_add_kv : ∀ (k v : List Char), wfEntries (add_kv_recursive k v) = true
| k, v => by
  rw [add_kv_recursive]
  cases hs : splitFirst '.' k with
  | none =>
    by_cases hv : v.contains '*' = true
    · rw [if_pos hv]
      simp [wfEntries, wfV, keysOf]
    · have hcond : ¬ (v.contains '*' = true) := hv
      rw [if_neg hcond]
      simp [wfEntries, keysOf, wfV_eval_str_fn]
  | some pq =>
    cases pq with
    | mk pre post =>
      simp only [wfEntries, wfV, Bool.and_eq_true, keysOf]
      refine ⟨⟨by simp, ?_⟩, by simp [wfEntries]⟩
      exact wf_add_kv post v
termination_by k _ => k.length
decreasing_by
  exact splitFirst_post_length hs

theorem wf_merge : ∀ (src target : Entries),
    wfEntries target = true → wfEntries src = true →
    wfEntries (merge_dict_recursive target src) = true
| [], target => by
  intro ht _
  simpa [merge_dict_recursive] using ht
| (k, v) :: rest, target => by
  intro ht hs
  simp only [wfEntries, Bool.and_eq_true] at hs
  obtain ⟨⟨hk, hv⟩, hrest⟩ := hs
  cases hg : dictGet target k with
  | none =>
    have hstep : merge_dict_recursive target ((k, v) :: rest)
        = merge_dict_recursive (dictSet target k v) rest := by
      simp [merge_dict_recursive, hg]
    rw [hstep]
    exact wf_merge rest _ (wf_dictSet _ _ _ ht hv) hrest
  | some oldv =>
    cases oldv with
    | dict td =>
      cases v with
      | dict sd =>
        have hstep : merge_dict_recursive target ((k, PyVal.dict sd) :: rest)
            = merge_dict_recursive
                (dictSet target k (PyVal.dict (merge_dict_recursive td sd))) rest := by
          simp [merge_dict_recursive, hg]
        rw [hstep]
        have htd : wfEntries td = true := by
          simpa [wfV] using dictGet_wf target k _ ht hg
        have hsd : wfEntries sd = true := by simpa [wfV] using hv
        have hmerged : wfEntries (merge_dict_recursive td sd) = true :=
          wf_merge sd td htd hsd
        exact wf_merge rest _ (wf_dictSet _ _ _ ht (by simpa [wfV] using hmerged)) hrest
      | prim p =>
        have hstep : merge_dict_recursive target ((k, PyVal.prim p) :: rest)
            = merge_dict_recursive (dictSet target k (PyVal.prim p)) rest := by
          simp [merge_dict_recursive, hg]
        rw [hstep]
        exact wf_merge rest _ (wf_dictSet _ _ _ ht hv) hrest
      | list xs =>
        have hstep : merge_dict_recursive target ((k, PyVal.list xs) :: rest)
            = merge_dict_recursive (dictSet target k (PyVal.list xs)) rest := by
          simp [merge_dict_recursive, hg]
        rw [hstep]
        exact wf_merge rest _ (wf_dictSet _ _ _ ht hv) hrest
      | config c =>
        have hstep : merge_dict_recursive target ((k, PyVal.config c) :: rest)
            = merge_dict_recursive (dictSet target k (PyVal.config c)) rest := by
          simp [merge_dict_recursive, hg]
        rw [hstep]
        exact wf_merge rest _ (wf_dictSet _ _ _ ht hv) hrest
    | prim p =>
      have hstep : merge_dict_recursive target ((k, v) :: rest)
          = merge_dict_recursive (dictSet target k v) rest := by
        simp [merge_dict_recursive, hg]
      rw [hstep]
      exact wf_merge rest _ (wf_dictSet _ _ _ ht hv) hrest
    | list xs =>
      have hstep : merge_dict_recursive target ((k, v) :: rest)
          = merge_dict_recursive (dictSet target k v) rest := by
        simp [merge_dict_recursive, hg]
      rw [hstep]
      exact wf_merge rest _ (wf_dictSet _ _ _ ht hv) hrest
    | config c =>
      have hstep : merge_dict_recursive target ((k, v) :: rest)
          = merge_dict_recursive (dictSet target k v) rest := by
        simp [merge_dict_recursive, hg]
      rw [hstep]
      exact wf_merge rest _ (wf_dictSet _ _ _ ht hv) hrest
termination_by src _ => esize src
decreasing_by
  all_goals simp [esize, vsize]
  all_goals omega

theorem wf_parsePairs : ∀ (pairs : List (List Char)) (acc : Entries) (s : String)
    (d : Entries), wfEntries acc = true →
    parsePairs s pairs acc = Except.ok d → wfEntries d = true
| [], acc, s, d => by
  intro hacc h
  simp [parsePairs] at h
  rw [← h]
  exact hacc
| q :: rest, acc, s, d => by
  intro hacc h
  by_cases hq : q = []
  · rw [hq] at h
    simp only [parsePairs, if_pos rfl] at h
    exact wf_parsePairs rest acc s d hacc h
  · rcases hsp : splitOnChar '=' q with _ | ⟨a, _ | ⟨b, _ | ⟨e, t⟩⟩⟩
    · rw [parsePairs_cons_err s q rest acc hq (by rw [hsp]; simp)] at h
      cases h
    · rw [parsePairs_cons_err s q rest acc hq (by rw [hsp]; simp)] at h
      cases h
    · simp only [parsePairs, hq, if_false, hsp] at h
      exact wf_parsePairs rest _ s d
        (wf_merge _ acc hacc (wf_add_kv (trimChars a) b)) h
    · rw [parsePairs_cons_err s q rest acc hq (by rw [hsp]; simp)] at h
      cases h

theorem wf_parse (s : String) (d : Entries)
    (h : parse_from_str s = Except.ok d) : wfEntries d = true := by
  simp only [parse_from_str] at h
  by_cases hs : s = ""
  · simp [hs] at h
    subst h
    simp [wfEntries]
  · simp only [hs, if_false] at h
    exact wf_parsePairs _ [] s d (by simp [wfEntries]) h

/-! ### Further structural helpers used by the claims -/

theorem updE_err_keyError : ∀ (src t : Entries) (aN : Bool) (e : PyErr),
    (updE t src aN).2 = some e → ∃ k : String, e = PyErr.keyError k
| [], t, aN, e => by
  intro h
  simp [updE] at h
| (k, v) :: rest, t, aN, e => by
  intro h
  simp only [updE] at h
  cases hg : dictGet t k with
  | none =>
    cases aN with
    | false =>
      simp [hg] at h
      exact ⟨k, h.symm⟩
    | true =>
      simp only [hg] at h
      exact updE_err_keyError rest _ true e (by simpa using h)
  | some oldv =>
    cases oldv with
    | config c =>
      cases v with
      | dict d =>
        cases hr : (updE c d aN).2 with
        | some e2 =>
          simp only [hg, hr] at h
          have he : e2 = e := by simpa using h
          rw [← he]
          exact updE_err_keyError d c aN e2 hr
        | none =>
          simp only [hg, hr] at h
          exact updE_err_keyError rest _ aN e (by simpa using h)
      | config c2 =>
        cases hr : (updE c (as_dict_entries c2) aN).2 with
        | some e2 =>
          simp only [hg, hr] at h
          have he : e2 = e := by simpa using h
          rw [← he]
          exact updE_err_keyError (as_dict_entries c2) c aN e2 hr
        | none =>
          simp only [hg, hr] at h
          exact updE_err_keyError rest _ aN e (by simpa using h)
      | prim p =>
        simp only [hg] at h
        exact updE_err_keyError rest _ aN e (by simpa using h)
      | list xs =>
        simp only [hg] at h
        exact updE_err_keyError rest _ aN e (by simpa using h)
    | prim p =>
      simp only [hg] at h
      exact updE_err_keyError rest _ aN e (by simpa using h)
    | list xs =>
      simp only [hg] at h
      exact updE_err_keyError rest _ aN e (by simpa using h)
    | dict d =>
      simp only [hg] at h
      exact updE_err_keyError rest _ aN e (by simpa using h)
termination_by src _ _ _ => esize src
decreasing_by
  all_goals simp [esize, vsize, esize_as_dict]
  all_goals omega

/-- A trivial stand-in for the external YAML collaborator, used in the
concrete examples (none of which go through the yaml branch). -/
def yamlNone : String → Entries := fun _ => []

/-- Shorthand for integer, boolean and string leaves. -/
abbrev pint (n : Int) : PyVal := PyVal.prim (Prim.int n)

/-- Shorthand for a boolean leaf. -/
abbrev pbool (b : Bool) : PyVal := PyVal.prim (Prim.bool b)

/-- Shorthand for a string leaf. -/
abbrev pstr (s : String) : PyVal := PyVal.prim (Prim.str s)

/-! ### The claims -/

/-- C1, counterexample.  The claim states that override with a ConfigTree
source never fails with InvalidOverrideType.  On the code this is false:
Config.override tests isinstance str and isinstance dict only, and a Config
instance is neither, so it falls into the unknown-value-type ValueError
branch.  Concretely, overriding the empty tree with an empty Config raises
exactly that error. -/
theorem claim_C1_counterexample :
    override yamlNone [] (PyVal.config []) false
      = ([], some (PyErr.unknownValueType (PyVal.config []))) := by
  simp [override]

/-- C1, amended.  For every tree t and every ConfigTree source s, t.override(s)
fails with the unknown-value-type ValueError (the spec's InvalidOverrideType),
leaving t unchanged: override accepts only strings and plain dicts, and a
ConfigTree source is not converted to its plain nested-mapping form. -/
theorem claim_C1_amended (yamlLoad : String → Entries) (t c : Entries)
    (allowNew : Bool) :
    override yamlLoad t (PyVal.config c) allowNew
      = (t, some (PyErr.unknownValueType (PyVal.config c))) := by
  simp [override]

/-- C2.  Strict override raises KeyError naming the offending key as soon as
the recursive merge meets a source key absent from the corresponding node,
leaving the tree unchanged at that point, while the same merge with
allow_new_keys true never raises and inserts the key instead.  On the tree
a maps-to (b maps-to 1), overriding with a maps-to (c maps-to 2) strictly
raises KeyError naming c, and permissively yields a maps-to
(b maps-to 1, c maps-to 2). -/
theorem claim_C2 :
    (∀ src t : Entries, (updE t src true).2 = Option.none)
    ∧ (∀ (t : Entries) (k : String) (v : PyVal) (rest : Entries),
        dictGet t k = Option.none →
        updE t ((k, v) :: rest) false = (t, some (PyErr.keyError k)))
    ∧ override yamlNone [("a", PyVal.config [("b", pint 1)])]
        (PyVal.dict [("a", PyVal.dict [("c", pint 2)])]) false
        = ([("a", PyVal.config [("b", pint 1)])], some (PyErr.keyError "c"))
    ∧ override yamlNone [("a", PyVal.config [("b", pint 1)])]
        (PyVal.dict [("a", PyVal.dict [("c", pint 2)])]) true
        = ([("a", PyVal.config [("b", pint 1), ("c", pint 2)])], Option.none) := by
  refine ⟨fun src t => updE_true_none src t, ?_, ?_, ?_⟩
  · intro t k v rest hg
    simp [updE, hg]
  · simp [override, updE, dictGet, dictSet, normV]
  · simp [override, updE, dictGet, dictSet, normV]

/-- C2, witness for the hypothesis-bearing conjunct at a concrete input. -/
theorem claim_C2_witness :
    updE [] [("x", pint 1)] false = ([], some (PyErr.keyError "x")) :=
  claim_C2.2.1 [] "x" (pint 1) [] (by simp [dictGet])

/-- C3, counterexample.  The claim states that the UnknownKeyError raised on
a nested strict rejection carries both the offending key name and its
nesting path.  On the code the KeyError message interpolates only the key
name: rejecting key c below a (path a.c) and rejecting key c below x (path
x.c) raise exactly the same error value, so the error cannot carry the
path. -/
theorem claim_C3_counterexample :
    (override yamlNone [("a", PyVal.config [("b", pint 1)])]
        (PyVal.dict [("a", PyVal.dict [("c", pint 2)])]) false).2
      = some (PyErr.keyError "c")
    ∧ (override yamlNone [("x", PyVal.config [("q", pint 1)])]
        (PyVal.dict [("x", PyVal.dict [("c", pint 2)])]) false).2
      = some (PyErr.keyError "c") := by
  constructor
  · simp [override, updE, dictGet, dictSet, normV]
  · simp [override, updE, dictGet, dictSet, normV]

/-- C3, amended.  Every error raised by Config._update is a KeyError carrying
the specific offending key name, and nothing more: in particular the nested
rejection in the spec's example raises KeyError naming exactly c, with no
nesting path. -/
theorem claim_C3_amended :
    (∀ (t src : Entries) (aN : Bool) (e : PyErr),
      (updE t src aN).2 = some e → ∃ k : String, e = PyErr.keyError k)
    ∧ (override yamlNone [("a", PyVal.config [("b", pint 1)])]
        (PyVal.dict [("a", PyVal.dict [("c", pint 2)])]) false).2
      = some (PyErr.keyError "c") := by
  refine ⟨fun t src aN e h => updE_err_keyError src t aN e h, ?_⟩
  simp [override, updE, dictGet, dictSet, normV]

/-- C3, amended, witness at a concrete input. -/
theorem claim_C3_amended_witness :
    ∃ k : String, PyErr.keyError "zz" = PyErr.keyError k :=
  claim_C3_amended.1 [] [("zz", pint 1)] false (PyErr.keyError "zz")
    (by simp [updE, dictGet])

/-- C4.  Round trip: constructing a Config from any valid nested mapping
(pairwise distinct keys, leaves primitives, sequences of primitives or
nested mappings) and converting back with as_dict returns exactly the same
mapping, keys in the same order. -/
theorem claim_C4 (M : Entries) (h : validMapEntries M = true) :
    as_dict_entries (configOf M) = M :=
  as_dict_configOf M h

/-- C4, witness at a concrete nested mapping. -/
theorem claim_C4_witness :
    as_dict_entries (configOf
      [("a", PyVal.dict [("b", pint 1)]), ("c", PyVal.list [pint 2, pint 3])])
      = [("a", PyVal.dict [("b", pint 1)]), ("c", PyVal.list [pint 2, pint 3])] :=
  claim_C4 [("a", PyVal.dict [("b", pint 1)]), ("c", PyVal.list [pint 2, pint 3])]
    (by simp [validMapEntries, validMapVal, allPrim, keysOf])

/-- C5.  Override-string parsing: the example string parses to the expected
nested mapping; empty pairs produced by duplicated or trailing commas are
skipped; a dotted key expands to nesting split at each dot; a star in the
value splits it into a list with each piece evaluated independently; and the
per-pair fragments are merged so that the last assignment for a path wins. -/
theorem claim_C5 :
    parse_from_str "a.b=1,a.c=2*3*4,d=true"
      = Except.ok [("a", PyVal.dict [("b", pint 1),
          ("c", PyVal.list [pint 2, pint 3, pint 4])]), ("d", pbool true)]
    ∧ (∀ (s : String) (l1 l2 : List (List Char)) (acc : Entries),
        parsePairs s (l1 ++ [] :: l2) acc = parsePairs s (l1 ++ l2) acc)
    ∧ (∀ (pre post v : List Char), pre.contains '.' = false →
        add_kv_recursive (pre ++ '.' :: post) v
          = [(String.mk pre, PyVal.dict (add_kv_recursive post v))])
    ∧ (∀ (k v : List Char), k.contains '.' = false → v.contains '*' = true →
        add_kv_recursive k v
          = [(String.mk k, PyVal.list ((splitOnChar '*' v).map eval_str_fn))])
    ∧ parse_from_str "a=1,a=2" = Except.ok [("a", pint 2)] := by
  refine ⟨?_, parsePairs_skip_empty, add_kv_dotted, add_kv_star, ?_⟩
  · simp [parse_from_str, parsePairs, splitOnChar, add_kv_recursive,
      merge_dict_recursive, trimChars, splitFirst, eval_str_fn, ast_literal_eval,
      decIntLit?, digitsToNat, dictGet, dictSet]
  · simp [parse_from_str, parsePairs, splitOnChar, add_kv_recursive,
      merge_dict_recursive, trimChars, splitFirst, eval_str_fn, ast_literal_eval,
      decIntLit?, digitsToNat, dictGet, dictSet]

/-- C5, witness for the hypothesis-bearing conjuncts at concrete inputs. -/
theorem claim_C5_witness :
    parsePairs "x" ([['a']] ++ [] :: [['b']]) [] = parsePairs "x" ([['a']] ++ [['b']]) []
    ∧ add_kv_recursive ("a.b".toList) ("1".toList)
        = [(String.mk "a".toList, PyVal.dict (add_kv_recursive ("b".toList) ("1".toList)))]
    ∧ add_kv_recursive ("c".toList) ("2*3".toList)
        = [(String.mk "c".toList,
            PyVal.list ((splitOnChar '*' ("2*3".toList)).map eval_str_fn))] :=
  ⟨claim_C5.2.1 "x" [['a']] [['b']] [],
   claim_C5.2.2.1 ("a".toList) ("b".toList) ("1".toList) (by decide),
   claim_C5.2.2.2.1 ("c".toList) ("2*3".toList) (by decide) (by decide)⟩

/-- C6.  Scalar value evaluation: eval_str_fn maps the exact lowercase
strings true and false to booleans; any other input is handed to the safe
literal evaluator, and on parse failure the raw input string is returned
unchanged, so an unparseable token such as efficientnet-b1 comes back as
itself. -/
theorem claim_C6 :
    eval_str_fn "true".toList = pbool true
    ∧ eval_str_fn "false".toList = pbool false
    ∧ (∀ cs : List Char, cs ≠ "true".toList → cs ≠ "false".toList →
        eval_str_fn cs = (match ast_literal_eval cs with
          | some v => v
          | Option.none => pstr (String.mk cs)))
    ∧ eval_str_fn "efficientnet-b1".toList = pstr "efficientnet-b1" := by
  refine ⟨by simp [eval_str_fn], by simp [eval_str_fn], ?_, ?_⟩
  · intro cs h1 h2
    have hcond : ¬ (cs = "true".toList ∨ cs = "false".toList) := by
      rintro (h | h)
      · exact h1 h
      · exact h2 h
    simp only [eval_str_fn, if_neg hcond]
  · simp [eval_str_fn, ast_literal_eval, decIntLit?]

/-- C6, witness for the hypothesis-bearing conjunct at a concrete input. -/
theorem claim_C6_witness :
    eval_str_fn "efficientnet-b1".toList
      = (match ast_literal_eval "efficientnet-b1".toList with
          | some v => v
          | Option.none => pstr (String.mk "efficientnet-b1".toList)) :=
  claim_C6.2.2.1 "efficientnet-b1".toList (by decide) (by decide)

/-- C7.  Whenever some comma-separated pair of an override string contains
two or more equals signs, override raises the parse ValueError wrapping the
original input string and leaves the tree unchanged (Python's two-element
unpacking of split fails there); an empty right-hand side after a single
equals sign is not an error and evaluates to the empty-string scalar. -/
theorem claim_C7 :
    (∀ (yamlLoad : String → Entries) (t : Entries) (s : String) (allowNew : Bool),
      (∃ p ∈ splitOnChar ',' s.toList, 2 ≤ p.count '=') →
      override yamlLoad t (PyVal.prim (Prim.str s)) allowNew
        = (t, some (PyErr.invalidConfigStr s)))
    ∧ parse_from_str "a=" = Except.ok [("a", pstr "")] := by
  constructor
  · intro yamlLoad t s allowNew h
    obtain ⟨p, hp, hcount⟩ := h
    have hlen2 : (splitOnChar '=' p).length ≠ 2 := by
      rw [length_splitOnChar]
      omega
    have hpne : p ≠ [] := by
      intro hh
      rw [hh] at hcount
      simp at hcount
    have hsub : p.Sublist s.toList := mem_splitOnChar_sublist ',' s.toList p hp
    have hcount2 : 2 ≤ s.toList.count '=' :=
      le_trans hcount (hsub.count_le '=')
    have hmem : '=' ∈ s.toList := by
      have hpos : 0 < s.toList.count '=' := by omega
      exact List.count_pos_iff.mp hpos
    have hs0 : s ≠ "" := by
      intro hh
      subst hh
      simp at hmem
    have hcont : s.toList.contains '=' = true := by
      simp
      exact hmem
    have hparse : parse_from_str s = Except.error (PyErr.invalidConfigStr s) := by
      simp only [parse_from_str, if_neg hs0]
      exact parsePairs_error s _ [] ⟨p, hp, hpne, hlen2⟩
    simp only [override]
    rw [if_neg hs0, if_pos hcont, hparse]
  · simp [parse_from_str, parsePairs, splitOnChar, add_kv_recursive,
      merge_dict_recursive, trimChars, splitFirst, eval_str_fn, ast_literal_eval,
      decIntLit?, dictGet, dictSet]

/-- C7, witness at the spec's own example input. -/
theorem claim_C7_witness :
    override yamlNone [] (PyVal.prim (Prim.str "a=b=c")) false
      = ([], some (PyErr.invalidConfigStr "a=b=c")) :=
  claim_C7.1 yamlNone [] "a=b=c" false (by decide)

/-- C8.  Merge semantics of _update on a key present in both sides: when the
stored value is a Config and the incoming value is a dict (or a Config,
converted with as_dict first), the merge recurses into the stored subtree in
place; when the stored value is not a Config, or the incoming value is
neither dict nor Config, the stored value is replaced by the normalized
incoming value.  So merging a Config holding b with a dict holding c deep
merges, while merging it with the scalar 5 replaces the subtree. -/
theorem claim_C8 :
    (∀ (t : Entries) (k : String) (c d rest : Entries) (aN : Bool),
      dictGet t k = some (PyVal.config c) → (updE c d aN).2 = Option.none →
      updE t ((k, PyVal.dict d) :: rest) aN
        = updE (dictSet t k (PyVal.config (updE c d aN).1)) rest aN)
    ∧ (∀ (t : Entries) (k : String) (c c2 rest : Entries) (aN : Bool),
      dictGet t k = some (PyVal.config c) →
      (updE c (as_dict_entries c2) aN).2 = Option.none →
      updE t ((k, PyVal.config c2) :: rest) aN
        = updE (dictSet t k (PyVal.config (updE c (as_dict_entries c2) aN).1)) rest aN)
    ∧ (∀ (t : Entries) (k : String) (w v : PyVal) (rest : Entries) (aN : Bool),
      dictGet t k = some w → (∀ cc : Entries, w ≠ PyVal.config cc) →
      updE t ((k, v) :: rest) aN = updE (dictSet t k (normV v)) rest aN)
    ∧ (∀ (t : Entries) (k : String) (c : Entries) (v : PyVal) (rest : Entries) (aN : Bool),
      dictGet t k = some (PyVal.config c) → (∀ d : Entries, v ≠ PyVal.dict d) →
      (∀ c2 : Entries, v ≠ PyVal.config c2) →
      updE t ((k, v) :: rest) aN = updE (dictSet t k (normV v)) rest aN)
    ∧ update [("a", PyVal.config [("b", pint 1)])] [("a", PyVal.dict [("c", pint 2)])]
        = [("a", PyVal.config [("b", pint 1), ("c", pint 2)])]
    ∧ update [("a", PyVal.config [("b", pint 1)])] [("a", pint 5)]
        = [("a", pint 5)] := by
  refine ⟨?_, ?_, ?_, ?_, ?_, ?_⟩
  · intro t k c d rest aN hg hr
    simp [updE, hg, hr]
  · intro t k c c2 rest aN hg hr
    simp [updE, hg, hr]
  · intro t k w v rest aN hg hcc
    simp only [updE]
    rw [hg]
    cases w with
    | config cc => exact absurd rfl (hcc cc)
    | prim p => cases v <;> simp
    | list xs => cases v <;> simp
    | dict d2 => cases v <;> simp
  · intro t k c v rest aN hg hd hc2
    simp only [updE]
    rw [hg]
    cases v with
    | dict d => exact absurd rfl (hd d)
    | config cc => exact absurd rfl (hc2 cc)
    | prim p => simp
    | list xs => simp
  · simp [update, updE, dictGet, dictSet, normV]
  · simp [update, updE, dictGet, dictSet, normV]

/-- C8, witness for the hypothesis-bearing conjuncts at concrete inputs. -/
theorem claim_C8_witness :
    updE [("x", PyVal.config [])] [("x", PyVal.dict [("y", pint 1)])] true
      = updE (dictSet [("x", PyVal.config [])] "x"
          (PyVal.config (updE [] [("y", pint 1)] true).1)) [] true
    ∧ updE [("x", pint 0)] [("x", pint 9)] true
      = updE (dictSet [("x", pint 0)] "x" (normV (pint 9))) [] true :=
  ⟨claim_C8.1 [("x", PyVal.config [])] "x" [] [("y", pint 1)] [] true
      (by simp [dictGet]) (updE_true_none _ _),
   claim_C8.2.2.1 [("x", pint 0)] "x" (pint 0) (pint 9) [] true
      (by simp [dictGet]) (fun cc h => by cases h)⟩

/-- C9.  No rollback on mid-merge failure: _update over a concatenated
source behaves as the sequential composition of the two halves, so when the
second half raises, the keys merged by the first half remain applied; in
the concrete run below the first key a is updated to 10 and stays updated
even though the later unknown key zz raises KeyError under strict mode. -/
theorem claim_C9 :
    (∀ (pre post target : Entries) (aN : Bool),
      (updE target pre aN).2 = Option.none →
      updE target (pre ++ post) aN = updE (updE target pre aN).1 post aN)
    ∧ updE [("a", pint 1), ("b", pint 2)] [("a", pint 10), ("zz", pint 3)] false
        = ([("a", pint 10), ("b", pint 2)], some (PyErr.keyError "zz")) := by
  refine ⟨updE_append, ?_⟩
  simp [updE, dictGet, dictSet, normV]

/-- C9, witness for the hypothesis-bearing conjunct at a concrete input. -/
theorem claim_C9_witness :
    updE [("a", pint 1)] ([("a", pint 2)] ++ [("a", pint 3)]) false
      = updE (updE [("a", pint 1)] [("a", pint 2)] false).1 [("a", pint 3)] false :=
  claim_C9.1 [("a", pint 2)] [("a", pint 3)] [("a", pint 1)] false
    (by simp [updE, dictGet, dictSet, normV])

/-- C10.  Key-set preservation under strict override: whenever override with
allow_new_keys false completes without raising (over a well-formed tree, a
well-formed source, and a YAML collaborator returning well-formed mappings),
the key list at the root and at every surviving Config node is exactly the
same after the call as before. -/
theorem claim_C10 (yamlLoad : String → Entries) (t : Entries) (src : PyVal)
    (hwt : wfEntries t = true) (hsrc : wfV src = true)
    (hyl : ∀ p, wfEntries (yamlLoad p) = true)
    (h : (override yamlLoad t src false).2 = Option.none) :
    keysPreserved t (override yamlLoad t src false).1 = true := by
  cases src with
  | prim pr =>
    cases pr with
    | str s =>
      by_cases hs : s = ""
      · subst hs
        have hov : override yamlLoad t (PyVal.prim (Prim.str "")) false
            = (t, Option.none) := by
          simp [override]
        rw [hov]
        exact keysPreserved_refl t hwt
      · by_cases hc : s.toList.contains '=' = true
        · cases hp : parse_from_str s with
          | ok d =>
            have hov : override yamlLoad t (PyVal.prim (Prim.str s)) false
                = updE t d false := by
              simp only [override]
              rw [if_neg hs, if_pos hc, hp]
            rw [hov] at h ⊢
            exact updE_keysPreserved d t hwt (wf_parse s d hp) h
          | error e =>
            have hov : override yamlLoad t (PyVal.prim (Prim.str s)) false
                = (t, some e) := by
              simp only [override]
              rw [if_neg hs, if_pos hc, hp]
            rw [hov] at h
            simp at h
        · have hcn : ¬ (s.toList.contains '=' = true) := hc
          by_cases hy : (".yaml".toList.isSuffixOf s.toList) = true
          · have hov : override yamlLoad t (PyVal.prim (Prim.str s)) false
                = updE t (yamlLoad s) false := by
              simp only [override]
              rw [if_neg hs, if_neg hcn, if_pos hy]
            rw [hov] at h ⊢
            exact updE_keysPreserved (yamlLoad s) t hwt (hyl s) h
          · have hyn : ¬ ((".yaml".toList.isSuffixOf s.toList) = true) := hy
            have hov : override yamlLoad t (PyVal.prim (Prim.str s)) false
                = (t, some (PyErr.invalidString s)) := by
              simp only [override]
              rw [if_neg hs, if_neg hcn, if_neg hyn]
            rw [hov] at h
            simp at h
    | int n => simp [override] at h
    | bool b => simp [override] at h
    | pynone => simp [override] at h
  | dict d =>
    have hov : override yamlLoad t (PyVal.dict d) false = updE t d false := by
      simp [override]
    rw [hov] at h ⊢
    exact updE_keysPreserved d t hwt (by simpa [wfV] using hsrc) h
  | list xs => simp [override] at h
  | config c => simp [override] at h

/-- C10, witness at a concrete strict override that succeeds. -/
theorem claim_C10_witness :
    keysPreserved [("a", PyVal.config [("b", pint 1)])]
      (override yamlNone [("a", PyVal.config [("b", pint 1)])]
        (PyVal.dict [("a", PyVal.dict [("b", pint 7)])]) false).1 = true :=
  claim_C10 yamlNone [("a", PyVal.config [("b", pint 1)])]
    (PyVal.dict [("a", PyVal.dict [("b", pint 7)])])
    (by simp [wfEntries, wfV, keysOf])
    (by simp [wfEntries, wfV, keysOf])
    (fun p => by simp [yamlNone, wfEntries])
    (by simp [override, updE, dictGet, dictSet, normV])

end HparamsConfig
